import Mathlib

/-!
Verification of the core subsystems of the bevy_caldera_scene demo:
the hash-noise generator, the compressed-buffer sizer, the procedural
texture builder, the readiness-gated material assigner and the benchmark
harness, shallowly embedded from src/main.rs.

Machine integers are modelled as natural numbers with explicit reduction
modulo 2^32 wherever the Rust code performs wrapping 32-bit arithmetic.
The two places where the code computes with f32 values that matter to the
statements (the unorm normalisation and the frames-per-phase division) are
modelled exactly: an f32 value is represented by the rational number it
denotes, and each rounding step (u32 -> f32 cast, f32 division result) is
the IEEE-754 round-to-nearest-even to a 24-bit significand, made explicit
below.  In the ranges exercised here no overflow or subnormal values occur,
so this rounding function is the exact f32 behaviour.
-/

namespace Caldera

/-- Fuel-driven floor of log2: natLog2F fuel n counts halvings until n <= 1.
The fuel only bounds the recursion; natLog2 passes fuel = n, which always
suffices because n strictly decreases at every step. -/
def natLog2F : ℕ → ℕ → ℕ
  | 0, _ => 0
  | fuel + 1, n => if n ≤ 1 then 0 else natLog2F fuel (n / 2) + 1

/-- Floor of the base-2 logarithm (0 at 0), used to find the binary exponent
of a value being rounded to f32. -/
def natLog2 (n : ℕ) : ℕ := natLog2F n n

/-- Round-to-nearest-even of a natural number to a 24-bit significand: the
exact value of the Rust cast `n as f32` for n < 2^32 (in this range the
result is a normal f32 and no exponent clamping can occur). -/
def rnd24 (n : ℕ) : ℕ :=
  if n < 2 ^ 24 then n
  else
    let s := natLog2 n - 23
    let q := n / 2 ^ s
    let r := n % 2 ^ s
    if 2 ^ s < 2 * r ∨ (2 * r = 2 ^ s ∧ q % 2 = 1) then (q + 1) * 2 ^ s else q * 2 ^ s

/-- Embedding of `uhash` from src/main.rs: wrapping 32-bit multiplies
combined with xor, then xor-shift rounds.  Shifts on u32 are modelled by
Nat.shiftRight; each wrapping multiply reduces modulo 2^32; xor of values
below 2^32 stays below 2^32, as in u32. -/
def uhash (a b : ℕ) : ℕ :=
  let x0 := (a * 1597334673 % 2 ^ 32) ^^^ (b * 3812015801 % 2 ^ 32)
  let x1 := x0 ^^^ (x0 >>> 16)
  let x2 := x1 * 0x7feb352d % 2 ^ 32
  let x3 := x2 ^^^ (x2 >>> 15)
  let x4 := x3 * 0x846ca68b % 2 ^ 32
  x4 ^^^ (x4 >>> 16)

/-- The hash sequence exactly as the claim words it: x = (a*1597334673) xor
(b*3812015801); x ^= x >> 16; x *= 0x7feb352d; x ^= x >> 15;
x *= 0x846ca68b; x ^= x >> 16, all arithmetic wrapping modulo 2^32. -/
def uhashSpecSequence (a b : ℕ) : ℕ :=
  let s0 := (a * 1597334673 % 2 ^ 32) ^^^ (b * 3812015801 % 2 ^ 32)
  let s1 := s0 ^^^ (s0 >>> 16)
  let s2 := s1 * 0x7feb352d % 2 ^ 32
  let s3 := s2 ^^^ (s2 >>> 15)
  let s4 := s3 * 0x846ca68b % 2 ^ 32
  s4 ^^^ (s4 >>> 16)

/-- Embedding of `unormf` from src/main.rs.  In the source,
`0xffffffffu32 as f32` rounds to 2^32, so `1.0 / (0xffffffffu32 as f32)` is
the exact f32 value 2^-32; multiplying `n as f32` (= rnd24 n) by that power
of two is exact in f32 for every n < 2^32 (the result stays normal).  Hence
the f32 produced by the code denotes exactly the rational rnd24 n / 2^32. -/
def unormf (n : ℕ) : ℚ := (rnd24 n : ℚ) / 2 ^ 32

/-- Embedding of `hash_noise` from src/main.rs: the (y << 11) + z packing is
wrapping u32 arithmetic. -/
def hash_noise (x y z : ℕ) : ℚ :=
  unormf (uhash x ((y * 2 ^ 11 % 2 ^ 32 + z) % 2 ^ 32))

/-- Round-to-nearest-even integer of the fraction N / D (D > 0): quotient,
bumped when the remainder is more than half of D, or exactly half with an
odd quotient. -/
def rtne (N D : ℕ) : ℕ :=
  let m := N / D
  let r := N % D
  if D < 2 * r ∨ (2 * r = D ∧ m % 2 = 1) then m + 1 else m

/-- IEEE-754 round-to-nearest-even of the positive rational num/den to a
24-bit significand (f32), without exponent clamping: exact f32 rounding for
results in the normal range.  The binary exponent e of the value is located
by comparing num against den scaled by powers of two, then the significand
is rounded with rtne at scale 2^(23-e). -/
def rndQPos (num den : ℕ) : ℚ :=
  if den ≤ num then
    let a := natLog2 num - natLog2 den
    let e := if den * 2 ^ a ≤ num then a else a - 1
    if e ≤ 23 then ((rtne (num * 2 ^ (23 - e)) den : ℕ) : ℚ) / 2 ^ (23 - e)
    else ((rtne num (den * 2 ^ (e - 23)) : ℕ) : ℚ) * 2 ^ (e - 23)
  else
    let a := natLog2 den - natLog2 num
    let e := if den ≤ num * 2 ^ a then a else a + 1
    ((rtne (num * 2 ^ (23 + e)) den : ℕ) : ℚ) / 2 ^ (23 + e)

/-- f32 rounding on rationals: nonpositive values are irrelevant to the
embedded code paths and map to 0. -/
def rndQ (q : ℚ) : ℚ := if q ≤ 0 then 0 else rndQPos q.num.toNat q.den

/-- The Rust saturating cast `x as u32` from f32, on the rational value of
the (finite) f32 x. -/
def f32_to_u32 (x : ℚ) : ℕ :=
  if x < 0 then 0 else min (Int.toNat ⌊x⌋) (2 ^ 32 - 1)

/-- Embedding of the frames-per-step computation in `benchmark`
(src/main.rs): ((2.0 / time.delta_seconds()) as u32).max(30), with the f32
division rounded to nearest even. -/
def bench_count_per_step (delta : ℚ) : ℕ :=
  max (f32_to_u32 (rndQ (2 / delta))) 30

end Caldera

namespace Caldera

lemma natLog2F_spec : ∀ fuel n, 0 < n → n ≤ fuel →
    2 ^ natLog2F fuel n ≤ n ∧ n < 2 ^ (natLog2F fuel n + 1) := by
  intro fuel
  induction fuel with
  | zero => intro n hn hf; omega
  | succ f ih =>
    intro n hn hf
    rw [natLog2F]
    by_cases h1 : n ≤ 1
    · have : n = 1 := by omega
      subst this
      simp
    · rw [if_neg h1]
      have hmpos : 0 < n / 2 := by omega
      have hmle : n / 2 ≤ f := by omega
      obtain ⟨hlo, hhi⟩ := ih (n / 2) hmpos hmle
      constructor
      · calc 2 ^ (natLog2F f (n / 2) + 1) = 2 ^ natLog2F f (n / 2) * 2 := by ring
        _ ≤ n / 2 * 2 := by omega
        _ ≤ n := by omega
      · have : n / 2 + 1 ≤ 2 ^ (natLog2F f (n / 2) + 1) := hhi
        calc n < (n / 2 + 1) * 2 := by omega
        _ ≤ 2 ^ (natLog2F f (n / 2) + 1) * 2 := by omega
        _ = 2 ^ (natLog2F f (n / 2) + 1 + 1) := by ring

lemma natLog2_spec (n : ℕ) (hn : 0 < n) :
    2 ^ natLog2 n ≤ n ∧ n < 2 ^ (natLog2 n + 1) :=
  natLog2F_spec n n hn le_rfl

lemma rnd24_le (n : ℕ) (h : n < 2 ^ 32) : rnd24 n ≤ 2 ^ 32 := by
  simp only [rnd24]
  by_cases hsmall : n < 2 ^ 24
  · rw [if_pos hsmall]; omega
  · rw [if_neg hsmall]
    push_neg at hsmall
    have hn0 : 0 < n := lt_of_lt_of_le (by norm_num) hsmall
    obtain ⟨hlo, hhi⟩ := natLog2_spec n hn0
    set k := natLog2 n with hk
    have hk24 : 24 ≤ k := by
      by_contra hc
      push_neg at hc
      have : 2 ^ (k + 1) ≤ 2 ^ 24 := Nat.pow_le_pow_right (by norm_num) (by omega)
      omega
    have hk31 : k ≤ 31 := by
      by_contra hc
      push_neg at hc
      have : 2 ^ 32 ≤ 2 ^ k := Nat.pow_le_pow_right (by norm_num) (by omega)
      omega
    have hsplit : 2 ^ (k + 1) = 2 ^ 24 * 2 ^ (k - 23) := by
      rw [← pow_add]
      congr 1
      omega
    have hq : n / 2 ^ (k - 23) < 2 ^ 24 := by
      apply Nat.div_lt_of_lt_mul
      calc n < 2 ^ (k + 1) := hhi
      _ = 2 ^ 24 * 2 ^ (k - 23) := hsplit
      _ = 2 ^ (k - 23) * 2 ^ 24 := by ring
    have hbound : (n / 2 ^ (k - 23) + 1) * 2 ^ (k - 23) ≤ 2 ^ 32 := by
      calc (n / 2 ^ (k - 23) + 1) * 2 ^ (k - 23) ≤ 2 ^ 24 * 2 ^ (k - 23) := by
            apply Nat.mul_le_mul_right
            omega
      _ = 2 ^ (k + 1) := hsplit.symm
      _ ≤ 2 ^ 32 := Nat.pow_le_pow_right (by norm_num) (by omega)
    split
    · exact hbound
    · calc n / 2 ^ (k - 23) * 2 ^ (k - 23) ≤ (n / 2 ^ (k - 23) + 1) * 2 ^ (k - 23) :=
            Nat.mul_le_mul_right _ (by omega)
      _ ≤ 2 ^ 32 := hbound

lemma xor_lt_u32 {a b : ℕ} (ha : a < 2 ^ 32) (hb : b < 2 ^ 32) : a ^^^ b < 2 ^ 32 :=
  Nat.bitwise_lt ha hb

lemma shiftRight_le_self (a k : ℕ) : a >>> k ≤ a := by
  rw [Nat.shiftRight_eq_div_pow]
  exact Nat.div_le_self _ _

/-- Claim C5: uhash is a pure deterministic function computing, with all
arithmetic wrapping modulo 2^32, x = (a*1597334673) xor (b*3812015801),
then the xor-shift/multiply rounds with shifts 16, 15, 16 and multipliers
0x7feb352d, 0x846ca68b; being a function of its two arguments alone, calls
with identical inputs always yield identical output, and the result stays
in the u32 range. -/
theorem uhash_matches_claimed_sequence :
    ∀ a b : ℕ, uhash a b = uhashSpecSequence a b ∧ uhash a b < 2 ^ 32 := by
  intro a b
  refine ⟨rfl, ?_⟩
  rw [uhash]
  apply xor_lt_u32
  · exact Nat.mod_lt _ (by norm_num)
  · exact lt_of_le_of_lt (shiftRight_le_self _ 16) (Nat.mod_lt _ (by norm_num))

/-- Claim C4 counterexample: unormf at the largest u32 input 0xFFFFFFFF is
exactly 1, because the cast of 4294967295 to f32 rounds up to 2^32 and the
code multiplies by the exact f32 constant 2^-32; hence the output does not
lie in the half-open interval [0, 1). -/
theorem unormf_attains_one :
    unormf 4294967295 = 1 ∧ ¬ unormf 4294967295 < 1 := by
  have h : rnd24 4294967295 = 4294967296 := by decide
  rw [unormf, h]
  norm_num

/-- Claim C4 (amended): for every 32-bit input n, unormf n lies in the closed
interval [0, 1]; the value 1 is attained at 0xFFFFFFFF, so the correct
range is [0, 1], not [0, 1), and the effective divisor is 2^32 (the f32
rounding of 0xFFFFFFFF), not 0xFFFFFFFF itself. -/
theorem unormf_range (n : ℕ) (h : n < 2 ^ 32) :
    0 ≤ unormf n ∧ unormf n ≤ 1 := by
  constructor
  · apply div_nonneg
    · exact Nat.cast_nonneg _
    · positivity
  · rw [unormf, div_le_one (by positivity)]
    have := rnd24_le n h
    calc (rnd24 n : ℚ) ≤ ((2 ^ 32 : ℕ) : ℚ) := by exact_mod_cast this
    _ = (2 : ℚ) ^ 32 := by norm_num

/-- Claim C4 witness: the amended range theorem applied at the concrete input 0. -/
theorem unormf_range_witness : 0 ≤ unormf 0 ∧ unormf 0 ≤ 1 :=
  unormf_range 0 (by norm_num)

lemma rtne_one (N : ℕ) : rtne N 1 = N := by
  simp [rtne]
  omega

lemma rndQ_natCast (n : ℕ) (h0 : 0 < n) (h24 : n < 2 ^ 24) : rndQ (n : ℚ) = n := by
  obtain ⟨hlo, hhi⟩ := natLog2_spec n h0
  have hle : natLog2 n ≤ 23 := by
    by_contra hc
    push_neg at hc
    have : 2 ^ 24 ≤ 2 ^ natLog2 n := Nat.pow_le_pow_right (by norm_num) (by omega)
    omega
  rw [rndQ, if_neg (by push_neg; exact_mod_cast h0)]
  have hnum : ((n : ℚ)).num.toNat = n := by simp
  have hden : ((n : ℚ)).den = 1 := by simp
  rw [hnum, hden, rndQPos]
  rw [if_pos (show 1 ≤ n by omega)]
  simp only [show natLog2 1 = 0 from rfl, Nat.sub_zero, one_mul]
  rw [if_pos hlo, if_pos hle, rtne_one]
  push_cast
  rw [mul_div_assoc, div_self (pow_ne_zero _ (by norm_num : (2 : ℚ) ≠ 0)), mul_one]

lemma cps_at_one_thirtieth : bench_count_per_step (1 / 30) = 60 := by
  have h1 : (2 : ℚ) / (1 / 30) = ((60 : ℕ) : ℚ) := by norm_num
  rw [bench_count_per_step, h1, rndQ_natCast 60 (by norm_num) (by norm_num)]
  rw [f32_to_u32, if_neg (by rw [not_lt]; exact Nat.cast_nonneg _)]
  norm_num [Int.floor_natCast]
  all_goals decide

lemma cps_at_one_sixtieth : bench_count_per_step (1 / 60) = 120 := by
  have h1 : (2 : ℚ) / (1 / 60) = ((120 : ℕ) : ℚ) := by norm_num
  rw [bench_count_per_step, h1, rndQ_natCast 120 (by norm_num) (by norm_num)]
  rw [f32_to_u32, if_neg (by rw [not_lt]; exact Nat.cast_nonneg _)]
  norm_num [Int.floor_natCast]
  all_goals decide

lemma cps_at_one : bench_count_per_step 1 = 30 := by
  have h1 : (2 : ℚ) / 1 = ((2 : ℕ) : ℚ) := by norm_num
  rw [bench_count_per_step, h1, rndQ_natCast 2 (by norm_num) (by norm_num)]
  rw [f32_to_u32, if_neg (by rw [not_lt]; exact Nat.cast_nonneg _)]
  norm_num [Int.floor_natCast]
  all_goals decide

end Caldera

namespace Caldera

/-- Embedding of `calculate_bcn_image_size_with_mips` from src/main.rs as a
fuel-driven loop (fuel bounds the iteration count; the top-level call
passes fuel = size, which always suffices because mip_size strictly
decreases every iteration — see bcnLoopF_fuel).  Per iteration:
num_blocks = mip_size / 4, the level size num_blocks * num_blocks *
block_size accumulates with wrapping u32 arithmetic, and mip_size becomes
max (mip_size / 2) 1; the loop runs only while 4 < mip_size. -/
def bcnLoopF : ℕ → ℕ → ℕ → ℕ → ℕ
  | 0, _, _, total_size => total_size
  | fuel + 1, block_size, mip_size, total_size =>
    if 4 < mip_size then
      bcnLoopF fuel block_size (max (mip_size / 2) 1)
        ((total_size + mip_size / 4 * (mip_size / 4) % 2 ^ 32 * block_size % 2 ^ 32) % 2 ^ 32)
    else total_size

def calculate_bcn_image_size_with_mips (size block_size : ℕ) : ℕ :=
  bcnLoopF size block_size size 0

/-- Modelled from the spec: the reference mip-chain byte total — repeatedly
accumulate (edge/4)^2 * block_bytes with exact (unbounded) arithmetic,
halve edge (floor, minimum 1), and stop accumulating once edge <= 4.  Same
fuel-driven shape as bcnLoopF, without the u32 wrapping. -/
def refLoopF : ℕ → ℕ → ℕ → ℕ → ℕ
  | 0, _, _, total => total
  | fuel + 1, block_bytes, edge, total =>
    if 4 < edge then
      refLoopF fuel block_bytes (max (edge / 2) 1) (total + edge / 4 * (edge / 4) * block_bytes)
    else total

def refMipChainSize (edge block_bytes : ℕ) : ℕ := refLoopF edge block_bytes edge 0

lemma bcnLoopF_fuel : ∀ f1 f2 b m t, m ≤ f1 → m ≤ f2 →
    bcnLoopF f1 b m t = bcnLoopF f2 b m t := by
  intro f1
  induction f1 with
  | zero =>
    intro f2 b m t hm1 hm2
    have hm : m = 0 := by omega
    subst hm
    cases f2 with
    | zero => rfl
    | succ g => rw [bcnLoopF, bcnLoopF, if_neg (by omega)]
  | succ f ih =>
    intro f2 b m t hm1 hm2
    cases f2 with
    | zero =>
      have hm : m = 0 := by omega
      subst hm
      rw [bcnLoopF, bcnLoopF, if_neg (by omega)]
    | succ g =>
      rw [bcnLoopF, bcnLoopF]
      by_cases h4 : 4 < m
      · rw [if_pos h4, if_pos h4]
        exact ih g b (max (m / 2) 1) _ (by omega) (by omega)
      · rw [if_neg h4, if_neg h4]

lemma refLoopF_fuel : ∀ f1 f2 b m t, m ≤ f1 → m ≤ f2 →
    refLoopF f1 b m t = refLoopF f2 b m t := by
  intro f1
  induction f1 with
  | zero =>
    intro f2 b m t hm1 hm2
    have hm : m = 0 := by omega
    subst hm
    cases f2 with
    | zero => rfl
    | succ g => rw [refLoopF, refLoopF, if_neg (by omega)]
  | succ f ih =>
    intro f2 b m t hm1 hm2
    cases f2 with
    | zero =>
      have hm : m = 0 := by omega
      subst hm
      rw [refLoopF, refLoopF, if_neg (by omega)]
    | succ g =>
      rw [refLoopF, refLoopF]
      by_cases h4 : 4 < m
      · rw [if_pos h4, if_pos h4]
        exact ih g b (max (m / 2) 1) _ (by omega) (by omega)
      · rw [if_neg h4, if_neg h4]

lemma le_refLoopF : ∀ f b m t, t ≤ refLoopF f b m t := by
  intro f
  induction f with
  | zero => intro b m t; exact le_refl t
  | succ g ih =>
    intro b m t
    rw [refLoopF]
    by_cases h4 : 4 < m
    · rw [if_pos h4]
      exact le_trans (Nat.le_add_right _ _) (ih b _ _)
    · rw [if_neg h4]

/-- With the same fuel, the wrapping u32 accumulation agrees with the exact
reference accumulation as long as the exact total stays below 2^32. -/
lemma bcnLoopF_eq_refLoopF : ∀ f b m t, t < 2 ^ 32 → refLoopF f b m t < 2 ^ 32 →
    bcnLoopF f b m t = refLoopF f b m t := by
  intro f
  induction f with
  | zero => intro b m t ht href; rfl
  | succ g ih =>
    intro b m t ht href
    rw [bcnLoopF, refLoopF]
    by_cases h4 : 4 < m
    · rw [if_pos h4, if_pos h4]
      rw [refLoopF, if_pos h4] at href
      have hsum : t + m / 4 * (m / 4) * b ≤ refLoopF g b (max (m / 2) 1) (t + m / 4 * (m / 4) * b) :=
        le_refLoopF g b _ _
      have hsumlt : t + m / 4 * (m / 4) * b < 2 ^ 32 := lt_of_le_of_lt hsum href
      have hterm : m / 4 * (m / 4) % 2 ^ 32 * b % 2 ^ 32 = m / 4 * (m / 4) * b := by
        rcases Nat.eq_zero_or_pos b with hb | hb
        · subst hb
          simp
        · have hA : m / 4 * (m / 4) ≤ m / 4 * (m / 4) * b := Nat.le_mul_of_pos_right _ hb
          have hB : m / 4 * (m / 4) * b < 2 ^ 32 := by omega
          have hA2 : m / 4 * (m / 4) < 2 ^ 32 := lt_of_le_of_lt hA hB
          rw [Nat.mod_eq_of_lt hA2, Nat.mod_eq_of_lt hB]
      rw [hterm, Nat.mod_eq_of_lt hsumlt]
      exact ih b _ _ hsumlt href
    · rw [if_neg h4, if_neg h4]

/-- Claim C3: the u32 loop in calculate_bcn_image_size_with_mips computes the
reference sum (accumulate (edge/4)^2 * block_bytes, halve edge with floor
and minimum 1, stop accumulating once edge <= 4) whenever that sum fits in
u32, and in particular the whole chain of an 8x8 texture with 16-byte
blocks is the single 2x2-block level: 64 bytes. -/
theorem calculate_bcn_matches_reference :
    (∀ size block_size, refMipChainSize size block_size < 2 ^ 32 →
        calculate_bcn_image_size_with_mips size block_size = refMipChainSize size block_size) ∧
    calculate_bcn_image_size_with_mips 8 16 = 64 := by
  constructor
  · intro size block_size h
    exact bcnLoopF_eq_refLoopF size block_size size 0 (by norm_num) h
  · decide

/-- Claim C3 witness: the reference sum for edge 8 with 16-byte blocks fits in
u32, and the refinement theorem instantiated there yields the concrete
agreement of the code with the reference. -/
theorem calculate_bcn_matches_reference_witness :
    calculate_bcn_image_size_with_mips 8 16 = refMipChainSize 8 16 :=
  calculate_bcn_matches_reference.1 8 16 (by decide)

/-- Claim C9 counterexample: at edge exactly 4 (with block_bytes 16 > 0) the loop
body never runs, so the computed chain size is 0, refuting positivity for
all edges >= 4. -/
theorem calculate_bcn_zero_at_four :
    ¬ (∀ edge block_bytes : ℕ, 4 ≤ edge → 0 < block_bytes →
        0 < calculate_bcn_image_size_with_mips edge block_bytes) := by
  intro hclaim
  have h4 : calculate_bcn_image_size_with_mips 4 16 = 0 := by decide
  have := hclaim 4 16 (by norm_num) (by norm_num)
  omega

/-- Claim C9 (amended): at least one mip level is counted — the chain size is
strictly positive — whenever the edge length is strictly greater than 4
(the loop needs 4 < edge, so edge = 4 yields zero levels) and block_bytes
is positive, provided the reference byte total fits in u32 (with u32
wrapping an adversarial edge/block_bytes pair could wrap the total to 0). -/
theorem calculate_bcn_pos_of_four_lt (edge block_bytes : ℕ)
    (h4 : 4 < edge) (hb : 0 < block_bytes)
    (hfit : refMipChainSize edge block_bytes < 2 ^ 32) :
    0 < calculate_bcn_image_size_with_mips edge block_bytes := by
  rw [calculate_bcn_image_size_with_mips,
    bcnLoopF_eq_refLoopF edge block_bytes edge 0 (by norm_num) hfit]
  obtain ⟨f, rfl⟩ : ∃ f, edge = f + 1 := ⟨edge - 1, by omega⟩
  rw [refLoopF, if_pos h4]
  have hterm : 0 < (f + 1) / 4 * ((f + 1) / 4) * block_bytes := by
    have : 1 ≤ (f + 1) / 4 := by omega
    have := Nat.mul_le_mul (Nat.mul_le_mul this this) hb
    omega
  calc 0 < 0 + (f + 1) / 4 * ((f + 1) / 4) * block_bytes := by omega
  _ ≤ refLoopF f block_bytes (max ((f + 1) / 2) 1) (0 + (f + 1) / 4 * ((f + 1) / 4) * block_bytes) :=
      le_refLoopF f block_bytes _ _

/-- Claim C9 witness: the amended positivity theorem applied at edge 8,
block_bytes 16. -/
theorem calculate_bcn_pos_of_four_lt_witness :
    0 < calculate_bcn_image_size_with_mips 8 16 :=
  calculate_bcn_pos_of_four_lt 8 16 (by norm_num) (by norm_num) (by decide)

end Caldera

namespace Caldera

/-- A generated texture is its byte buffer (each byte a value < 256). -/
abbrev Texture := List ℕ

/-- Embedding of `generate_random_compressed_texture_with_mipmaps` from
src/main.rs: a buffer of calculate_bcn_image_size_with_mips (size, 8 for
BC4 / 16 for BC7) bytes, byte i being `uhash(i, seed) as u8` (the low 8
bits).  The engine-side descriptor fields (format tag, sampler) carry no
logic and are omitted. -/
def generate_random_compressed_texture_with_mipmaps (size : ℕ) (bc4 : Bool) (seed : ℕ) :
    Texture :=
  (List.range (calculate_bcn_image_size_with_mips size (if bc4 then 8 else 16))).map
    fun i => uhash i seed % 2 ^ 8

/-- Claim C6: the generated buffer has exactly the computed mip-chain length
(block_bytes 8 when the narrow BC4 format is selected, 16 otherwise), and
the byte at every linear offset i is the low 8 bits of uhash(i, seed) — the
computed size and the bytes written can never disagree. -/
theorem generate_texture_size_and_bytes :
    ∀ (size : ℕ) (bc4 : Bool) (seed : ℕ),
      (generate_random_compressed_texture_with_mipmaps size bc4 seed).length =
        calculate_bcn_image_size_with_mips size (if bc4 then 8 else 16) ∧
      ∀ i, ∀ h : i < (generate_random_compressed_texture_with_mipmaps size bc4 seed).length,
        (generate_random_compressed_texture_with_mipmaps size bc4 seed).get ⟨i, h⟩ =
          uhash i seed % 2 ^ 8 := by
  intro size bc4 seed
  constructor
  · simp [generate_random_compressed_texture_with_mipmaps]
  · intro i h
    simp [generate_random_compressed_texture_with_mipmaps]

/-- Claim C6 witness: for an 8x8 BC7 texture with seed 0, the byte at offset 0
computed through the theorem. -/
theorem generate_texture_size_and_bytes_witness :
    (generate_random_compressed_texture_with_mipmaps 8 false 0).get ⟨0, by decide⟩ =
      uhash 0 0 % 2 ^ 8 :=
  (generate_texture_size_and_bytes 8 false 0).2 0 (by decide)

/-- Embedding of the per-channel texture pick in `assign_rng_materials`
(src/main.rs): none when the pool is empty, otherwise the pool entry at the
round-robin index i mod pool length. -/
def roundRobinTexture (pool : List Texture) (i : ℕ) : Option Texture :=
  if h : pool.length = 0 then none
  else some (pool.get ⟨i % pool.length, Nat.mod_lt i (Nat.pos_of_ne_zero h)⟩)

/-- Claim C7: for a non-empty pool of length N the texture attached for mesh
ordinal i is pool entry i mod N, and for an empty pool no texture is
attached (not an error). -/
theorem round_robin_texture_index :
    ∀ (pool : List Texture) (i : ℕ),
      (∀ h : 0 < pool.length,
          roundRobinTexture pool i = some (pool.get ⟨i % pool.length, Nat.mod_lt i h⟩)) ∧
      (pool.length = 0 → roundRobinTexture pool i = none) := by
  intro pool i
  constructor
  · intro h
    rw [roundRobinTexture, dif_neg (by omega)]
  · intro h
    rw [roundRobinTexture, dif_pos h]

/-- Claim C7 witness: the round-robin theorem at a concrete singleton pool with
ordinal 5 (index 5 mod 1 = 0), and at the empty pool. -/
theorem round_robin_texture_index_witness :
    roundRobinTexture [([] : Texture)] 5 =
      some ([([] : Texture)].get ⟨5 % [([] : Texture)].length, Nat.mod_lt 5 (by decide)⟩) ∧
    roundRobinTexture [] 5 = none :=
  ⟨(round_robin_texture_index [([] : Texture)] 5).1 (by decide),
   (round_robin_texture_index [] 5).2 rfl⟩

end Caldera

namespace Caldera

/-- Fixed expected unique-mesh count from src/main.rs. -/
def UNIQUE_MESH_QTY : ℕ := 24182

/-- Fixed expected mesh-instance count from src/main.rs. -/
def MESH_INSTANCE_QTY : ℕ := 35689

/-- A generated StandardMaterial, keeping exactly the fields the code sets:
the hash-derived base color triple and the three optional texture
references. -/
structure Material where
  base_color : ℚ × ℚ × ℚ
  base_color_texture : Option Texture
  normal_map_texture : Option Texture
  metallic_roughness_texture : Option Texture

/-- The unique material built for mesh ordinal i in assign_rng_materials:
base color channels hash_noise(i,0,0), hash_noise(i,0,1), hash_noise(i,0,2)
and round-robin texture picks from the three pools. -/
def mkUniqueMaterial (bc nm rg : List Texture) (i : ℕ) : Material :=
  { base_color := (hash_noise i 0 0, hash_noise i 0 1, hash_noise i 0 2)
    base_color_texture := roundRobinTexture bc i
    normal_map_texture := roundRobinTexture nm i
    metallic_roughness_texture := roundRobinTexture rg i }

/-- The base-color texture pool: texture_count BC7 textures of edge 2048
with seeds 0..texture_count-1. -/
def baseColorPool (texture_count : ℕ) : List Texture :=
  (List.range texture_count).map
    fun i => generate_random_compressed_texture_with_mipmaps 2048 false i

/-- The normal-map pool: seeds offset by 1024. -/
def normalPool (texture_count : ℕ) : List Texture :=
  (List.range texture_count).map
    fun i => generate_random_compressed_texture_with_mipmaps 2048 false (i + 1024)

/-- The roughness pool: BC4 (narrow) textures, seeds offset by 2048. -/
def roughnessPool (texture_count : ℕ) : List Texture :=
  (List.range texture_count).map
    fun i => generate_random_compressed_texture_with_mipmaps 2048 true (i + 2048)

/-- Inputs of one assign_rng_materials invocation: the configuration flags
and the scene contents observed through the ECS queries — unique meshes (by
handle, in the stable Assets iteration order) and mesh instances as
(entity, mesh handle) pairs. -/
structure AssignEnv where
  random_materials : Bool
  texture_count : ℕ
  meshes : List ℕ
  mesh_instances : List (ℕ × ℕ)

/-- State mutated by assign_rng_materials: the one-shot `done` latch, the
image store (Assets of Image) and the entity -> material insertions issued
through Commands. -/
structure AssignState where
  done : Bool
  images : List Texture
  registry : List (ℕ × Material)

/-- The inner double loop of assign_rng_materials: for each unique mesh (in
order, with ordinal i), insert the unique material for i on every entity
whose mesh handle equals that mesh. -/
def passFrom (env : AssignEnv) : ℕ → List ℕ → List (ℕ × Material)
  | _, [] => []
  | i, mesh_h :: rest =>
      ((env.mesh_instances.filter fun q => q.2 == mesh_h).map fun q =>
          (q.1, mkUniqueMaterial (baseColorPool env.texture_count)
            (normalPool env.texture_count) (roughnessPool env.texture_count) i))
        ++ passFrom env (i + 1) rest

/-- The full assignment pass over all observed unique meshes. -/
def assignmentPass (env : AssignEnv) : List (ℕ × Material) :=
  passFrom env 0 env.meshes

/-- Embedding of `assign_rng_materials` from src/main.rs: an invocation is
a no-op unless random materials are enabled, the one-shot latch is still
unset, and both observed counts equal their fixed targets; otherwise it
builds the three texture pools, performs the full assignment pass, and sets
the latch. -/
def assign_rng_materials (env : AssignEnv) (s : AssignState) : AssignState :=
  if env.random_materials = false ∨ s.done = true ∨
      ¬ env.meshes.length = UNIQUE_MESH_QTY ∨
      ¬ env.mesh_instances.length = MESH_INSTANCE_QTY then
    s
  else
    { done := true
      images := s.images ++ baseColorPool env.texture_count ++ normalPool env.texture_count
        ++ roughnessPool env.texture_count
      registry := s.registry ++ assignmentPass env }

lemma passFrom_mem (env : AssignEnv) :
    ∀ (meshes : List ℕ) (start i : ℕ) (h : i < meshes.length) (e m : ℕ),
      (e, m) ∈ env.mesh_instances → m = meshes.get ⟨i, h⟩ →
      (e, mkUniqueMaterial (baseColorPool env.texture_count) (normalPool env.texture_count)
          (roughnessPool env.texture_count) (start + i)) ∈ passFrom env start meshes := by
  intro meshes
  induction meshes with
  | nil =>
    intro start i h
    exact absurd h (by simp)
  | cons mh rest ih =>
    intro start i h e m hmem hm
    cases i with
    | zero =>
      rw [passFrom]
      apply List.mem_append_left
      apply List.mem_map.mpr
      refine ⟨(e, m), List.mem_filter.mpr ⟨hmem, ?_⟩, ?_⟩
      · simp only [List.get] at hm
        simp [hm]
      · simp only [List.get] at hm
        simp
    | succ j =>
      rw [passFrom]
      apply List.mem_append_right
      have hj : j < rest.length := by
        simpa using h
      have hm2 : m = rest.get ⟨j, hj⟩ := by
        simpa using hm
      have := ih (start + 1) j hj e m hmem hm2
      have harith : start + 1 + j = start + (j + 1) := by omega
      rw [harith] at this
      exact this

/-- Claim C2: assign_rng_materials is a one-shot latch.  Whenever either observed
count differs from its fixed target the invocation is a no-op (state,
hence pools and registry, unchanged); so is any invocation after the latch
is set.  With the feature enabled, on the first invocation where both
counts equal their targets it sets the latch, appends exactly one full
assignment pass to the registry — each unique mesh ordinal's material going
to every instance of that mesh — and every subsequent invocation, whatever
its environment, is a no-op. -/
theorem assign_rng_materials_one_shot :
    ∀ (env : AssignEnv) (s : AssignState),
      ((env.meshes.length ≠ UNIQUE_MESH_QTY ∨ env.mesh_instances.length ≠ MESH_INSTANCE_QTY) →
          assign_rng_materials env s = s) ∧
      (s.done = true → assign_rng_materials env s = s) ∧
      (env.random_materials = true → s.done = false →
        env.meshes.length = UNIQUE_MESH_QTY → env.mesh_instances.length = MESH_INSTANCE_QTY →
          (assign_rng_materials env s).done = true ∧
          (assign_rng_materials env s).registry = s.registry ++ assignmentPass env ∧
          (∀ i, ∀ h : i < env.meshes.length, ∀ e m : ℕ,
              (e, m) ∈ env.mesh_instances → m = env.meshes.get ⟨i, h⟩ →
              (e, mkUniqueMaterial (baseColorPool env.texture_count)
                  (normalPool env.texture_count) (roughnessPool env.texture_count) i) ∈
                (assign_rng_materials env s).registry) ∧
          (∀ env2 : AssignEnv,
            assign_rng_materials env2 (assign_rng_materials env s) =
              assign_rng_materials env s)) := by
  intro env s
  refine ⟨?_, ?_, ?_⟩
  · intro hmis
    rw [assign_rng_materials, if_pos]
    tauto
  · intro hdone
    rw [assign_rng_materials, if_pos]
    tauto
  · intro hflag hdone hmesh hinst
    have hguard : ¬ (env.random_materials = false ∨ s.done = true ∨
        ¬ env.meshes.length = UNIQUE_MESH_QTY ∨
        ¬ env.mesh_instances.length = MESH_INSTANCE_QTY) := by
      push_neg
      refine ⟨?_, ?_, hmesh, hinst⟩
      · simp [hflag]
      · simp [hdone]
    rw [assign_rng_materials, if_neg hguard]
    refine ⟨rfl, rfl, ?_, ?_⟩
    · intro i h e m hmem hm
      apply List.mem_append_right
      have := passFrom_mem env env.meshes 0 i h e m hmem hm
      rw [Nat.zero_add] at this
      exact this
    · intro env2
      rw [assign_rng_materials, if_pos]
      tauto

/-- Concrete environment used to witness the firing clause of the latch
theorem: feature on, pool size 0, and scene lists of exactly the expected
lengths. -/
def assignWitnessEnv : AssignEnv :=
  { random_materials := true
    texture_count := 0
    meshes := List.range UNIQUE_MESH_QTY
    mesh_instances := (List.range MESH_INSTANCE_QTY).map fun e => (e, 0) }

/-- Initial state used by the same witness. -/
def assignWitnessState : AssignState :=
  { done := false, images := [], registry := [] }

/-- Claim C2 witness: the latch theorem applied at the concrete matching
environment — the call fires (sets the latch) and appends the pass. -/
theorem assign_rng_materials_one_shot_witness :
    (assign_rng_materials assignWitnessEnv assignWitnessState).done = true ∧
    (assign_rng_materials assignWitnessEnv assignWitnessState).registry =
      assignWitnessState.registry ++ assignmentPass assignWitnessEnv := by
  have h := (assign_rng_materials_one_shot assignWitnessEnv assignWitnessState).2.2
    rfl rfl (by simp [assignWitnessEnv]) (by simp [assignWitnessEnv])
  exact ⟨h.1, h.2.1⟩

/-- Claim C10: uhash has a fixed point at zero — uhash(0,0) = 0 — hence
hash_noise(0,0,0) = 0 and the unique material of mesh ordinal 0 gets a
base-color red channel of exactly 0, whatever the texture pools are. -/
theorem uhash_zero_fixed_point :
    uhash 0 0 = 0 ∧ hash_noise 0 0 0 = 0 ∧
    ∀ bc nm rg : List Texture, (mkUniqueMaterial bc nm rg 0).base_color.1 = 0 := by
  have h0 : uhash 0 0 = 0 := by decide
  have h1 : hash_noise 0 0 0 = 0 := by
    have hz : rnd24 0 = 0 := by decide
    have : uhash 0 ((0 * 2 ^ 11 % 2 ^ 32 + 0) % 2 ^ 32) = 0 := by decide
    rw [hash_noise, this, unormf, hz]
    norm_num
  exact ⟨h0, h1, fun bc nm rg => h1⟩

end Caldera

namespace Caldera

/-- The data printed by the benchmark report: the raw elapsed wall-clock
seconds since the start instant and the frame-counter value used as the
divisor of the printed average (avg ms = elapsed / frames * 1000). -/
structure Report where
  elapsed : ℚ
  frames : ℕ

/-- The Local state of the `benchmark` system (src/main.rs): the optional
start instant (in seconds), the frame counter, the frames-per-step count,
and which CAM_POS constant the camera transform currently holds (0 = the
initial, externally set transform). -/
structure BenchState where
  bench_started : Option ℚ
  bench_frame : ℕ
  count_per_step : ℕ
  cam : ℕ

/-- The start-trigger handling at the top of `benchmark`: on an
edge-triggered B press while no run is active, record the start instant,
zero the frame counter and compute frames-per-step from the current frame
duration. -/
def benchStart (pressed : Bool) (now delta : ℚ) (s : BenchState) : BenchState :=
  if pressed = true ∧ s.bench_started = none then
    { s with bench_started := some now, bench_frame := 0
             count_per_step := bench_count_per_step delta }
  else s

/-- The per-frame body of `benchmark` after start handling: return early
when no run is active or the camera is missing; otherwise move the camera
at the phase boundaries (frame 0, count_per_step, 2x, wrapping u32
multiplies) and, at frame 3 x count_per_step, emit the report and reset to
Idle; the frame counter increments (wrapping) on every non-early-return
tick. -/
def benchTick (cam_ok : Bool) (now : ℚ) (s : BenchState) : BenchState × Option Report :=
  match s.bench_started with
  | none => (s, none)
  | some start =>
    if cam_ok = false then (s, none)
    else if s.bench_frame = 0 then
      ({ s with cam := 1, bench_frame := (s.bench_frame + 1) % 2 ^ 32 }, none)
    else if s.bench_frame = s.count_per_step then
      ({ s with cam := 2, bench_frame := (s.bench_frame + 1) % 2 ^ 32 }, none)
    else if s.bench_frame = s.count_per_step * 2 % 2 ^ 32 then
      ({ s with cam := 3, bench_frame := (s.bench_frame + 1) % 2 ^ 32 }, none)
    else if s.bench_frame = s.count_per_step * 3 % 2 ^ 32 then
      ({ bench_started := none, bench_frame := (0 + 1) % 2 ^ 32
         count_per_step := s.count_per_step, cam := 1 },
       some { elapsed := now - start, frames := s.bench_frame })
    else ({ s with bench_frame := (s.bench_frame + 1) % 2 ^ 32 }, none)

/-- One invocation of the `benchmark` system. -/
def benchmark (pressed cam_ok : Bool) (now delta : ℚ) (s : BenchState) :
    BenchState × Option Report :=
  benchTick cam_ok now (benchStart pressed now delta s)

/-- The initial Local state: no run active, counters zero. -/
def benchInit : BenchState :=
  { bench_started := none, bench_frame := 0, count_per_step := 0, cam := 0 }

/-- Concrete scenario of the end-to-end claim: the wall clock advances by
exactly one frame of 1/30 s per tick (tick t happens at t/30 seconds), the
camera entity exists, and the press schedule is a parameter.  simState is
the Local state after t ticks. -/
def simState (press : ℕ → Bool) : ℕ → BenchState
  | 0 => benchInit
  | t + 1 => (benchmark (press (t + 1)) true (((t + 1 : ℕ) : ℚ) / 30) (1 / 30)
      (simState press t)).1

/-- The report (if any) emitted by tick t of the same scenario. -/
def simOut (press : ℕ → Bool) : ℕ → Option Report
  | 0 => none
  | t + 1 => (benchmark (press (t + 1)) true (((t + 1 : ℕ) : ℚ) / 30) (1 / 30)
      (simState press t)).2

/-- Press schedule: B pressed on tick 1 only. -/
def press1 : ℕ → Bool := fun t => t == 1

/-- Press schedule: B pressed on ticks 1 and 100 (an attempted mid-run
restart). -/
def pressMid : ℕ → Bool := fun t => t == 1 || t == 100

/-- Press schedule: B pressed on ticks 1 and 241 (a second run after the
first completes). -/
def pressTwice : ℕ → Bool := fun t => t == 1 || t == 241

/-- Which CAM_POS the camera holds during the run started at tick 1 with 60
frames per step. -/
def camAt (t : ℕ) : ℕ := if t ≤ 60 then 1 else if t ≤ 120 then 2 else 3

/-- The in-run state after tick t (1 <= t <= 180) of the concrete run. -/
def runState (t : ℕ) : BenchState :=
  { bench_started := some (1 / 30), bench_frame := t, count_per_step := 60, cam := camAt t }

/-- The state after the run completes: Idle again (frame counter holds the
stray post-reset increment, which the next start zeroes). -/
def idleState : BenchState :=
  { bench_started := none, bench_frame := 1, count_per_step := 60, cam := 1 }

end Caldera

namespace Caldera

lemma benchStart_skip (p : Bool) (now delta : ℚ) (s : BenchState)
    (h : p = false ∨ s.bench_started ≠ none) : benchStart p now delta s = s := by
  rw [benchStart, if_neg]
  rintro ⟨hp, hn⟩
  rcases h with h | h
  · rw [h] at hp
    exact Bool.false_ne_true hp
  · exact h hn

lemma benchStart_fire (now delta : ℚ) (s : BenchState) (h : s.bench_started = none) :
    benchStart true now delta s =
      { s with bench_started := some now, bench_frame := 0
               count_per_step := bench_count_per_step delta } := by
  rw [benchStart, if_pos ⟨rfl, h⟩]

lemma benchTick_none (now : ℚ) (s : BenchState) (h : s.bench_started = none) :
    benchTick true now s = (s, none) := by
  rw [benchTick]
  split
  · rfl
  · next st heq => rw [h] at heq; exact absurd heq (by simp)

lemma benchTick_some (now st : ℚ) (fr cps cam : ℕ) :
    benchTick true now { bench_started := some st, bench_frame := fr
                         count_per_step := cps, cam := cam } =
      if fr = 0 then
        ({ bench_started := some st, bench_frame := (fr + 1) % 2 ^ 32
           count_per_step := cps, cam := 1 }, none)
      else if fr = cps then
        ({ bench_started := some st, bench_frame := (fr + 1) % 2 ^ 32
           count_per_step := cps, cam := 2 }, none)
      else if fr = cps * 2 % 2 ^ 32 then
        ({ bench_started := some st, bench_frame := (fr + 1) % 2 ^ 32
           count_per_step := cps, cam := 3 }, none)
      else if fr = cps * 3 % 2 ^ 32 then
        ({ bench_started := none, bench_frame := (0 + 1) % 2 ^ 32
           count_per_step := cps, cam := 1 }, some { elapsed := now - st, frames := fr })
      else
        ({ bench_started := some st, bench_frame := (fr + 1) % 2 ^ 32
           count_per_step := cps, cam := cam }, none) := by
  rw [benchTick]
  rfl

lemma press1_eq_false {t : ℕ} (h : t ≠ 1) : press1 t = false := by
  simp [press1]
  omega

lemma simState_one : simState press1 1 = runState 1 := by
  rw [simState, benchmark]
  have h1 : press1 1 = true := rfl
  rw [h1, benchStart_fire _ _ _ rfl]
  rw [show (((0 + 1 : ℕ) : ℚ) / 30) = 1 / 30 by norm_num]
  simp only [benchInit, cps_at_one_thirtieth]
  rw [benchTick_some]
  rw [if_pos rfl]
  simp [runState, camAt]

lemma camAt_succ {n : ℕ} (h60 : n ≠ 60) (h120 : n ≠ 120) : camAt (n + 1) = camAt n := by
  unfold camAt
  split_ifs <;> omega

lemma simState_run : ∀ t, 1 ≤ t → t ≤ 180 → simState press1 t = runState t := by
  intro t
  induction t with
  | zero => intro h1 h2; omega
  | succ n ih =>
    intro h1 h2
    by_cases hn0 : n = 0
    · subst hn0
      exact simState_one
    · have hn1 : 1 ≤ n := by omega
      have hn179 : n ≤ 179 := by omega
      rw [simState, benchmark, press1_eq_false (by omega),
        benchStart_skip _ _ _ _ (Or.inl rfl), ih hn1 (by omega), runState, benchTick_some]
      rw [if_neg (by omega)]
      by_cases h60 : n = 60
      · subst h60
        rw [if_pos rfl]
        simp [runState, camAt]
      · rw [if_neg h60]
        by_cases h120 : n = 120
        · subst h120
          rw [if_pos (by omega)]
          simp [runState, camAt]
        · rw [if_neg (by omega), if_neg (by omega)]
          have hlt : n + 1 < 4294967296 := by omega
          simp [runState, Nat.mod_eq_of_lt hlt, camAt_succ h60 h120]

lemma simOut_one : simOut press1 1 = none := by
  rw [simOut, benchmark]
  have h1 : press1 1 = true := rfl
  rw [h1, benchStart_fire _ _ _ rfl]
  simp only [benchInit, cps_at_one_thirtieth]
  rw [benchTick_some]
  rw [if_pos rfl]

lemma simOut_run : ∀ t, 1 ≤ t → t ≤ 180 → simOut press1 t = none := by
  intro t h1 h2
  by_cases hn0 : t = 1
  · subst hn0
    exact simOut_one
  · obtain ⟨n, rfl⟩ : ∃ n, t = n + 1 := ⟨t - 1, by omega⟩
    have hn1 : 1 ≤ n := by omega
    have hn179 : n ≤ 179 := by omega
    rw [simOut, benchmark, press1_eq_false (by omega),
      benchStart_skip _ _ _ _ (Or.inl rfl), simState_run n hn1 (by omega), runState,
      benchTick_some]
    rw [if_neg (by omega)]
    by_cases h60 : n = 60
    · subst h60
      rw [if_pos rfl]
    · rw [if_neg h60]
      by_cases h120 : n = 120
      · subst h120
        rw [if_pos (by omega)]
      · rw [if_neg (by omega), if_neg (by omega)]

lemma simOut_at_181 : simOut press1 181 = some { elapsed := 6, frames := 180 } := by
  rw [simOut, benchmark, press1_eq_false (by omega),
    benchStart_skip _ _ _ _ (Or.inl rfl), simState_run 180 (by omega) (by omega), runState,
    benchTick_some]
  rw [if_neg (by omega), if_neg (by omega), if_neg (by omega), if_pos (by omega)]
  have : (((180 + 1 : ℕ) : ℚ) / 30) - 1 / 30 = 6 := by norm_num
  rw [this]

lemma simState_at_181 : simState press1 181 = idleState := by
  rw [simState, benchmark, press1_eq_false (by omega),
    benchStart_skip _ _ _ _ (Or.inl rfl), simState_run 180 (by omega) (by omega), runState,
    benchTick_some]
  rw [if_neg (by omega), if_neg (by omega), if_neg (by omega), if_pos (by omega)]
  simp [idleState]

lemma simState_idle : ∀ t, 181 ≤ t → t ≤ 240 → simState press1 t = idleState := by
  intro t
  induction t with
  | zero => intro h1 h2; omega
  | succ n ih =>
    intro h1 h2
    by_cases hn : n + 1 = 181
    · rw [hn]
      exact simState_at_181
    · have h181 : 181 ≤ n := by omega
      rw [simState, benchmark, press1_eq_false (by omega),
        benchStart_skip _ _ _ _ (Or.inl rfl), ih h181 (by omega),
        benchTick_none _ _ rfl]

lemma simOut_idle : ∀ t, 182 ≤ t → t ≤ 240 → simOut press1 t = none := by
  intro t h1 h2
  obtain ⟨n, rfl⟩ : ∃ n, t = n + 1 := ⟨t - 1, by omega⟩
  rw [simOut, benchmark, press1_eq_false (by omega),
    benchStart_skip _ _ _ _ (Or.inl rfl), simState_idle n (by omega) (by omega),
    benchTick_none _ _ rfl]

end Caldera

namespace Caldera

lemma simBoth_mid : ∀ t, t ≤ 240 →
    simState pressMid t = simState press1 t ∧ simOut pressMid t = simOut press1 t := by
  intro t
  induction t with
  | zero => intro h; exact ⟨rfl, rfl⟩
  | succ n ih =>
    intro h
    obtain ⟨ihs, iho⟩ := ih (by omega)
    by_cases h100 : n + 1 = 100
    · have hn99 : n = 99 := by omega
      have hs : simState press1 n = runState 99 := by
        rw [hn99]
        exact simState_run 99 (by omega) (by omega)
      have hsome : (simState press1 n).bench_started ≠ none := by
        rw [hs, runState]
        simp
      constructor
      · rw [simState, simState, ihs, benchmark, benchmark,
          benchStart_skip _ _ _ _ (Or.inr hsome),
          benchStart_skip _ _ _ _ (Or.inl (press1_eq_false (by omega)))]
      · rw [simOut, simOut, ihs, benchmark, benchmark,
          benchStart_skip _ _ _ _ (Or.inr hsome),
          benchStart_skip _ _ _ _ (Or.inl (press1_eq_false (by omega)))]
    · have hbeq : ((n + 1 : ℕ) == 100) = false := beq_eq_false_iff_ne.mpr h100
      have hp : pressMid (n + 1) = press1 (n + 1) := by
        simp [pressMid, press1, hbeq]
      constructor
      · rw [simState, simState, hp, ihs]
      · rw [simOut, simOut, hp, ihs]

lemma simState_congr (pa pb : ℕ → Bool) : ∀ t, (∀ u, 1 ≤ u → u ≤ t → pa u = pb u) →
    simState pa t = simState pb t := by
  intro t
  induction t with
  | zero => intro h; rfl
  | succ n ih =>
    intro h
    rw [simState, simState, ih fun u hu1 hu2 => h u hu1 (by omega),
      h (n + 1) (by omega) le_rfl]

lemma simState_241 :
    (simState pressTwice 241).bench_started = some (((240 + 1 : ℕ) : ℚ) / 30) := by
  have h240 : simState pressTwice 240 = idleState := by
    have hcong : simState pressTwice 240 = simState press1 240 := by
      apply simState_congr
      intro u hu1 hu2
      have hb : ((u : ℕ) == 241) = false := beq_eq_false_iff_ne.mpr (by omega)
      simp [pressTwice, press1, hb]
    rw [hcong]
    exact simState_idle 240 (by omega) le_rfl
  rw [simState, h240]
  have hp : pressTwice (240 + 1) = true := rfl
  rw [benchmark, hp, benchStart_fire _ _ _ rfl]
  simp only [idleState]
  rw [benchTick_some, if_pos rfl]

/-- Claim C1 counterexample: in the end-to-end scenario of the claim (start
signal on tick 1 while Idle, frame duration fixed at 1/30 s, hence 60
frames per step), tick 240 emits no report at all; the single report of the
run is emitted by tick 181, and its frame divisor is 180 = 3 x 60, not 240
= 4 x 60 — the code reports when the frame counter reaches
3 x count_per_step, covering three phases, not four. -/
theorem benchmark_no_report_at_tick_240 :
    simOut press1 240 = none ∧
    simOut press1 181 = some { elapsed := 6, frames := 180 } ∧
    (180 : ℕ) ≠ 240 ∧ (181 : ℕ) ≠ 240 := by
  refine ⟨simOut_idle 240 (by omega) le_rfl, simOut_at_181, by omega, by omega⟩

/-- Claim C1 (amended): for a run started while Idle with frame duration 1/30 s
(60 frames per step), the harness emits exactly one report per completed
run, on tick 3 x 60 + 1 = 181 (when the frame counter reads 180 = 3 x
frames-per-step), with average frame time equal to elapsed wall-clock time
divided by 180; a start signal arriving mid-run (tick 100) changes nothing,
and after the run the harness is Idle again and accepts a new start signal
(tick 241). -/
theorem benchmark_single_report_at_181 :
    simOut press1 181 = some { elapsed := 6, frames := 180 } ∧
    (∀ t, 1 ≤ t → t ≤ 240 → t ≠ 181 → simOut press1 t = none) ∧
    (simState press1 240).bench_started = none ∧
    (∀ t, t ≤ 240 → simState pressMid t = simState press1 t) ∧
    (simState pressTwice 241).bench_started = some ((241 : ℚ) / 30) ∧
    (simState press1 1).count_per_step = 60 := by
  refine ⟨simOut_at_181, ?_, ?_, ?_, ?_, ?_⟩
  · intro t h1 h2 hne
    by_cases hle : t ≤ 180
    · exact simOut_run t h1 hle
    · exact simOut_idle t (by omega) h2
  · rw [simState_idle 240 (by omega) le_rfl]
    rfl
  · intro t ht
    exact (simBoth_mid t ht).1
  · rw [simState_241]
    norm_num
  · rw [simState_one]
    rfl

/-- Claim C1 witness: the amended theorem's per-tick silence clause applied at
the concrete tick 2. -/
theorem benchmark_single_report_at_181_witness : simOut press1 2 = none :=
  benchmark_single_report_at_181.2.1 2 (by norm_num) (by norm_num) (by norm_num)

/-- Claim C8: on an accepted start trigger the frames-per-step count is
max(30, trunc(2.0 / frame-duration)): a frame duration of 1/60 s yields
120, a duration of 1 s yields 30 (the floor of 30 applies), and in general,
whenever the f32 division 2.0 / delta is exact, the computed count is
max 30 (floor (2 / delta)). -/
theorem bench_frames_per_phase :
    bench_count_per_step (1 / 60) = 120 ∧ bench_count_per_step 1 = 30 ∧
    ∀ d : ℚ, 0 < d → rndQ (2 / d) = 2 / d → 2 / d < 2 ^ 32 →
      bench_count_per_step d = max 30 (Int.toNat ⌊(2 : ℚ) / d⌋) := by
  refine ⟨cps_at_one_sixtieth, cps_at_one, ?_⟩
  intro d hd hexact hlt
  rw [bench_count_per_step, hexact, f32_to_u32, if_neg (by rw [not_lt]; positivity)]
  have hfl : ⌊(2 : ℚ) / d⌋ < (2 : ℤ) ^ 32 := by
    rw [Int.floor_lt]
    exact_mod_cast hlt
  have htn : Int.toNat ⌊(2 : ℚ) / d⌋ ≤ 2 ^ 32 - 1 := by omega
  rw [min_eq_left htn, Nat.max_comm]

/-- Claim C8 witness: the general formula clause applied at the concrete frame
duration 1 s. -/
theorem bench_frames_per_phase_witness :
    bench_count_per_step 1 = max 30 (Int.toNat ⌊(2 : ℚ) / 1⌋) :=
  bench_frames_per_phase.2.2 1 (by norm_num)
    (by
      rw [show (2 : ℚ) / 1 = ((2 : ℕ) : ℚ) by norm_num]
      exact rndQ_natCast 2 (by norm_num) (by norm_num))
    (by norm_num)

end Caldera
